import Mathlib

/-!
Verification of the pdf2md-js core algorithms against their natural-language
specification.

The development shallowly embeds three parts of the repository:

1. the rectangle geometry primitives and the region clustering engine
   (`src/src/utils.js`: `getDistance`, `isNear`, `isHorizontalNear`,
   `unionRects`, `isValidRect`; `src/packages/pdf2md/src/rectProcessor.ts`:
   `mergeRects`, `adsorbRectsToRects`);
2. the markdown heading utilities
   (`src/src/utils.ts`: `extractMdFromLLMOutput`, `getOldMarkdownHeadings`,
   `adjustMarkdownHeadings`, `createTitleLevelMap`);
3. the bounded-concurrency page pipeline
   (`src/src/index.ts`: `parsePdf` / `processInParallel`).

Modelling choices:
* JavaScript numbers are modelled by exact rationals (`ℚ`); `Math.sqrt` by
  `Real.sqrt` over `ℝ`.  A rectangle models the turf bounding box
  `[x0, y0, x1, y1]` of a region.
* JavaScript strings are modelled as `List Char`; `String.prototype.split`,
  `trim`, `repeat`, `indexOf`, `lastIndexOf`, `substring` and the two heading
  regular expressions are embedded explicitly, including the backtracking
  behaviour of `/^(#+)\s*(.+)/` on lines consisting only of markers and
  whitespace.  A JavaScript `Map` keyed by strings is an association list.
* The cooperative concurrency of `processInParallel` is modelled as a step
  relation on a scheduler state; the nondeterministic order in which in-flight
  invocations settle is an oracle (`choices : List ℕ`), each entry selecting
  one of the currently in-flight pages.  Per-page success or failure of the
  model invocation is a second oracle (`success : ℕ → Bool`).
-/

/-! ### Rectangle geometry (`src/src/utils.js`) -/

/-- Axis-aligned rectangle, as the turf bounding box `[x0, y0, x1, y1]`
(`createRect` / `turf.bbox` in `src/src/utils.js`). -/
structure Rect where
  x0 : ℚ
  y0 : ℚ
  x1 : ℚ
  y1 : ℚ
deriving DecidableEq, Repr

/-- The overlap test at the head of `getDistance`: the two bounding boxes
overlap on both axes. -/
def rectOverlap (a b : Rect) : Bool :=
  decide (a.x0 ≤ b.x1 ∧ b.x0 ≤ a.x1 ∧ a.y0 ≤ b.y1 ∧ b.y0 ≤ a.y1)

/-- Horizontal separation `dx` computed by `getDistance`: `0` unless the
x-intervals are disjoint, in which case it is the positive gap. -/
def dxGap (a b : Rect) : ℚ :=
  if a.x1 < b.x0 then b.x0 - a.x1
  else if b.x1 < a.x0 then a.x0 - b.x1
  else 0

/-- Vertical separation `dy` computed by `getDistance`. -/
def dyGap (a b : Rect) : ℚ :=
  if a.y1 < b.y0 then b.y0 - a.y1
  else if b.y1 < a.y0 then a.y0 - b.y1
  else 0

/-- `getDistance(rect1, rect2, buffer = 0.1)` of `src/src/utils.js`: `0` when
the boxes overlap on both axes, otherwise
`Math.sqrt(dx*dx + dy*dy) - buffer*2`. -/
noncomputable def getDistance (a b : Rect) (buffer : ℝ) : ℝ :=
  if rectOverlap a b then 0
  else Real.sqrt (((dxGap a b : ℚ) : ℝ) ^ 2 + ((dyGap a b : ℚ) : ℝ) ^ 2) - buffer * 2

/-- `isNear(rect1, rect2, distance)` of `src/src/utils.js`:
`getDistance(rect1, rect2) < distance`, with the default buffer `0.1`.
Stated in decidable squared form so that it computes; the theorem
`isNear_eq_getDistance` below proves it equal to the source's
square-root formulation. -/
def isNear (a b : Rect) (d : ℚ) : Bool :=
  if rectOverlap a b then decide ((0 : ℚ) < d)
  else decide (0 < d + 1/5 ∧ (dxGap a b) ^ 2 + (dyGap a b) ^ 2 < (d + 1/5) ^ 2)

/-- `isHorizontalNear(rect1, rect2, distance)` of `src/src/utils.js`. -/
def isHorizontalNear (a b : Rect) (d : ℚ) : Bool :=
  let height1 := a.y1 - a.y0
  let height2 := b.y1 - b.y0
  let width1 := a.x1 - a.x0
  let width2 := b.x1 - b.x0
  if (height1 < 2 ∧ width1 > 10) ∧ (height2 < 2 ∧ width2 > 10) then
    if (a.x0 ≤ b.x1 ∧ b.x0 ≤ a.x1) ∨ |a.x0 - b.x0| < 5 ∨ |a.x1 - b.x1| < 5 then
      decide (min |a.y0 - b.y1| |a.y1 - b.y0| < d)
    else false
  else false

/-- `unionRects(rect1, rect2)` of `src/src/utils.js` on two present
rectangles: the smallest box covering both. -/
def unionRects (a b : Rect) : Rect :=
  ⟨min a.x0 b.x0, min a.y0 b.y0, max a.x1 b.x1, max a.y1 b.y1⟩

/-- `isValidRect(rect)` of `src/src/utils.js` on a bare bounding box:
coordinates ordered and strictly positive extent on both axes. -/
def isValidRect (r : Rect) : Bool :=
  decide (r.x0 ≤ r.x1 ∧ r.y0 ≤ r.y1 ∧ 0 < r.x1 - r.x0 ∧ 0 < r.y1 - r.y0)

/-! ### Region clustering (`src/packages/pdf2md/src/rectProcessor.ts`) -/

/-- The merge test of the inner loop of `mergeRects`:
`isNear(rect, otherRect, distance) || (horizontalDistance &&
isHorizontalNear(rect, otherRect, horizontalDistance))`.  A `horizontalDistance`
of `null` (here `none`) or `0` is falsy and disables the second test. -/
def mergeNear (d : ℚ) (hd : Option ℚ) (a b : Rect) : Bool :=
  isNear a b d ||
    (match hd with
     | none => false
     | some h => if h = 0 then false else isHorizontalNear a b h)

/-- The inner `for` loop of `mergeRects`: scan the remaining queue once,
left to right, absorbing every rectangle near the (growing) current one.
Returns the final current rectangle, the rectangles left in the queue
(in order), and whether any merge happened. -/
def absorbScan (near : Rect → Rect → Bool) (rect : Rect) :
    List Rect → Rect × List Rect × Bool
  | [] => (rect, [], false)
  | r :: rs =>
    if near rect r then
      let t := absorbScan near (unionRects rect r) rs
      (t.1, t.2.1, true)
    else
      let t := absorbScan near rect rs
      (t.1, r :: t.2.1, t.2.2)

/-- One full pass of `mergeRects` (the inner `while (workingRects.length > 0)`
loop): repeatedly shift the head of the queue, absorb everything near it,
and append the result to the next round's list.  The `ℕ` argument is
recursion fuel; `mergePass` below supplies enough of it. -/
def mergePassAux (near : Rect → Rect → Bool) : ℕ → List Rect → List Rect × Bool
  | 0, l => (l, false)
  | _ + 1, [] => ([], false)
  | fuel + 1, r :: rs =>
    let t := absorbScan near r rs
    let p := mergePassAux near fuel t.2.1
    (t.1 :: p.1, t.2.2 || p.2)

/-- One full pass of `mergeRects` over a working list. -/
def mergePass (near : Rect → Rect → Bool) (l : List Rect) : List Rect × Bool :=
  mergePassAux near l.length l

/-- The outer `while (merged && workingRects.length > 0)` loop of
`mergeRects`: rerun full passes until one makes no merge.  Each merging
pass strictly shrinks the list, so `mergeRects` below supplies the list
length as sufficient fuel. -/
def mergeLoopAux (near : Rect → Rect → Bool) : ℕ → List Rect → List Rect
  | 0, l => l
  | fuel + 1, l =>
    let p := mergePass near l
    if p.2 then mergeLoopAux near fuel p.1 else p.1

/-- `mergeRects(rectList, distance = 20, horizontalDistance = null)` of
`src/packages/pdf2md/src/rectProcessor.ts`: filter invalid rectangles,
run merging passes to a fixpoint, filter invalid rectangles again. -/
def mergeRects (rectList : List Rect) (d : ℚ) (hd : Option ℚ) : List Rect :=
  let validRects := rectList.filter isValidRect
  (mergeLoopAux (mergeNear d hd) validRects.length validRects).filter isValidRect

/-- The inner target scan of `adsorbRectsToRects`: find the first target near
the source, replace it in place by the union, and stop.  `none` when no
target is near. -/
def adsorbOne (d : ℚ) (s : Rect) : List Rect → Option (List Rect)
  | [] => none
  | t :: ts =>
    if isNear s t d then some (unionRects s t :: ts)
    else (adsorbOne d s ts).map (t :: ·)

/-- `adsorbRectsToRects(sourceRects, targetRects, distance = 10)` of
`src/packages/pdf2md/src/rectProcessor.ts`: each source is absorbed into the
first near target (updating the running target list), sources with no near
target pass through.  Returns `(unabsorbed sources, updated targets)`. -/
def adsorbRectsToRects (sourceRects targetRects : List Rect) (d : ℚ) :
    List Rect × List Rect :=
  match sourceRects with
  | [] => ([], targetRects)
  | s :: ss =>
    match adsorbOne d s targetRects with
    | some ts => adsorbRectsToRects ss ts d
    | none =>
      let r := adsorbRectsToRects ss targetRects d
      (s :: r.1, r.2)

/-! ### Spec-side geometry (for the refinement claim about `getDistance`) -/

/-- Modelled from the spec: the per-axis horizontal separation described in
§4.1 — "each gap being 0 if the intervals overlap on that axis, else the
positive separation". -/
def specGapX (a b : Rect) : ℚ :=
  max 0 (max (b.x0 - a.x1) (a.x0 - b.x1))

/-- Modelled from the spec: the per-axis vertical separation of §4.1. -/
def specGapY (a b : Rect) : ℚ :=
  max 0 (max (b.y0 - a.y1) (a.y0 - b.y1))

/-! ### Markdown heading utilities (`src/src/utils.ts`) -/

/-- Characters matched by the `\s` class of the heading regular expressions
(ASCII subset; lines produced by splitting on newline contain no `'\n'`). -/
def isWsChar (c : Char) : Bool :=
  c = ' ' || c = '\t' || c = '\n' || c = '\r' || c = '\x0b' || c = '\x0c'

/-- `markdownText.split('\n')`, recursively: head line so far, remaining
lines. -/
def splitLinesAux : List Char → List Char × List (List Char)
  | [] => ([], [])
  | c :: cs =>
    let t := splitLinesAux cs
    if c = '\n' then ([], t.1 :: t.2) else (c :: t.1, t.2)

/-- `markdownText.split('\n')`: always at least one (possibly empty) line. -/
def splitLines (s : List Char) : List (List Char) :=
  (splitLinesAux s).1 :: (splitLinesAux s).2

/-- `lines.join('\n')`. -/
def joinLines : List (List Char) → List Char
  | [] => []
  | [l] => l
  | l :: l' :: ls => l ++ '\n' :: joinLines (l' :: ls)

/-- The match of `/^#+\s*(.*)/` on a line: succeeds exactly when the line
starts with `'#'`; the captured group is the line after the maximal run of
`'#'` and the maximal following run of whitespace (both quantifiers are
greedy and `(.*)` never forces backtracking). -/
def match1 (line : List Char) : Option (List Char) :=
  if line.head? = some '#' then
    some ((line.dropWhile (· = '#')).dropWhile isWsChar)
  else none

/-- The match of `/^(#+)\s*(.+)/` on a line, with the backtracking of a
JavaScript regex engine made explicit.  With `line = '#'*h ++ w ++ r`
(`h` maximal, `w` the maximal whitespace run after it): if `r` is nonempty the
groups are `('#'*h, r)`; otherwise `\s*` gives back one character, so if `w`
is nonempty the groups are `('#'*h, last char of w)`; otherwise `#+` gives
back one `'#'` (needing `h ≥ 2`), giving `('#'*(h-1), "#")`. -/
def headerMatch2 (line : List Char) : Option (ℕ × List Char) :=
  let hs := line.takeWhile (· = '#')
  let rest := line.dropWhile (· = '#')
  let w := rest.takeWhile isWsChar
  let r := rest.dropWhile isWsChar
  if hs.length = 0 then none
  else
    match r, w.getLast? with
    | _ :: _, _ => some (hs.length, r)
    | [], some c => some (hs.length, [c])
    | [], none => if 2 ≤ hs.length then some (hs.length - 1, ['#']) else none

/-- `text.trim()` (ASCII whitespace). -/
def trimWs (s : List Char) : List Char :=
  (((s.dropWhile isWsChar).reverse).dropWhile isWsChar).reverse

/-- `Map.prototype.set` on an association list keyed by strings: overwrite the
existing binding in place, else append. -/
def mapSet : List (List Char × ℕ) → List Char → ℕ → List (List Char × ℕ)
  | [], k, v => [(k, v)]
  | (k', v') :: rest, k, v =>
    if k' = k then (k', v) :: rest else (k', v') :: mapSet rest k v

/-- `Map.prototype.get` on the association list (`has` is `isSome` of this). -/
def mapGet : List (List Char × ℕ) → List Char → Option ℕ
  | [], _ => none
  | (k', v') :: rest, k => if k' = k then some v' else mapGet rest k

/-- `createTitleLevelMap(data)` of `src/src/utils.ts`: for every line matching
`/^(#+)\s*(.+)/`, bind the trimmed text to the marker count (later bindings
overwrite earlier ones). -/
def createTitleLevelMap (data : List Char) : List (List Char × ℕ) :=
  (splitLines data).foldl
    (fun m line =>
      match headerMatch2 line with
      | some lt => mapSet m (trimWs lt.2) lt.1
      | none => m)
    []

/-- The per-line body of `adjustMarkdownHeadings`: non-heading lines pass
through; heading lines whose captured (untrimmed) text is a key of the map are
rewritten to `'#'.repeat(level) + ' ' + content`; other heading lines pass
through. -/
def processLine (map : List (List Char × ℕ)) (line : List Char) : List Char :=
  match match1 line with
  | none => line
  | some content =>
    match mapGet map content with
    | some level => List.replicate level '#' ++ ' ' :: content
    | none => line

/-- `adjustMarkdownHeadings(markdownText, newTitle)` of `src/src/utils.ts`. -/
def adjustMarkdownHeadings (markdownText newTitle : List Char) : List Char :=
  joinLines ((splitLines markdownText).map (processLine (createTitleLevelMap newTitle)))

/-- `getOldMarkdownHeadings(markdownText)` of `src/src/utils.ts`: the lines
matching `/^#+\s*(.*)/`, joined by newlines. -/
def getOldMarkdownHeadings (markdownText : List Char) : List Char :=
  joinLines ((splitLines markdownText).filter (fun l => (match1 l).isSome))

/-- `output.indexOf(pat)`: the first position where `pat` occurs, if any. -/
def firstOcc (pat : List Char) : List Char → Option ℕ
  | [] => if pat.isPrefixOf ([] : List Char) then some 0 else none
  | c :: t =>
    if pat.isPrefixOf (c :: t) then some 0
    else (firstOcc pat t).map (· + 1)

/-- `output.lastIndexOf(pat)`: the last position where `pat` occurs, if any. -/
def lastOcc (pat : List Char) : List Char → Option ℕ
  | [] => if pat.isPrefixOf ([] : List Char) then some 0 else none
  | c :: t =>
    match lastOcc pat t with
    | some i => some (i + 1)
    | none => if pat.isPrefixOf (c :: t) then some 0 else none

/-- `output.substring(a, b)`: clamp both indices to the length and swap them
if needed. -/
def jsSubstring (s : List Char) (a b : ℕ) : List Char :=
  let a' := min a s.length
  let b' := min b s.length
  (s.drop (min a' b')).take (max a' b' - min a' b')

/-- The opening tag searched by `extractMdFromLLMOutput`. -/
def mdFenceTag : List Char := "```markdown".toList

/-- The closing fence searched by `extractMdFromLLMOutput`. -/
def fenceTag : List Char := "```".toList

/-- `extractMdFromLLMOutput(output)` of `src/src/utils.ts`: `undefined` unless
both `output.indexOf('```markdown')` and `output.lastIndexOf('```')` succeed,
else `output.substring(mdStart + 12, mdEnd)`. -/
def extractMdFromLLMOutput (output : List Char) : Option (List Char) :=
  match firstOcc mdFenceTag output, lastOcc fenceTag output with
  | some s, some e => some (jsSubstring output (s + 12) e)
  | _, _ => none

/-! ### Bounded-concurrency pipeline (`src/src/index.ts`) -/

/-- The `taskStatus` values of `ProgressInfo`. -/
inductive TaskStatus where
  | starting
  | running
  | finished
deriving DecidableEq, Repr

/-- The `ProgressInfo` record passed to `onProgress`. -/
structure ProgressInfo where
  current : ℕ
  total : ℕ
  taskStatus : TaskStatus
deriving DecidableEq, Repr

/-- State of `processInParallel` running `parsePdf`'s `processImages`:
the pending `queue`, the `inProgress` set (as a list in insertion order),
the pages settled so far in settlement order (`done`), the shared
`pageContents` collection (`contents`), and the `running` progress events
emitted so far (`events`).  Items are page indexes. -/
structure PipeState where
  queue : List ℕ
  inFlight : List ℕ
  done : List ℕ
  contents : List (ℕ × List Char)
  events : List ProgressInfo
deriving DecidableEq, Repr

/-- The initial state: every item pending, nothing in flight. -/
def initState (items : List ℕ) : PipeState :=
  ⟨items, [], [], [], []⟩

/-- The inner `while (inProgress.size < concurrencyLimit && queue.length > 0)`
loop: move items from the front of the queue into the in-flight set while
there is room. -/
def fill (C : ℕ) : List ℕ → List ℕ → List ℕ × List ℕ
  | [], f => ([], f)
  | x :: xs, f =>
    if f.length < C then fill C xs (f ++ [x]) else (x :: xs, f)

/-- What `processImages(item)` does when the model invocation for page `p`
settles: on success, push `{pageIndex, content}` onto the shared collection
and report `running` progress with `current = pageContents.length` (read
after the push); on failure, log and return a failure marker, touching
neither. -/
def settleOne (N : ℕ) (success : ℕ → Bool) (contentOf : ℕ → List Char)
    (p : ℕ) (s : PipeState) : PipeState :=
  if success p then
    { s with
        contents := s.contents ++ [(p, contentOf p)],
        events := s.events ++ [⟨s.contents.length + 1, N, TaskStatus.running⟩] }
  else s

/-- One iteration of the outer scheduler loop: refill the in-flight set, then
(`await Promise.race(inProgress)`) one in-flight invocation — selected by the
oracle `choice` — settles and is removed.  When nothing is in flight the state
is left unchanged. -/
def schedStep (C N : ℕ) (success : ℕ → Bool) (contentOf : ℕ → List Char)
    (choice : ℕ) (s : PipeState) : PipeState :=
  let qf := fill C s.queue s.inFlight
  if h : qf.2 = [] then { s with queue := qf.1, inFlight := qf.2 }
  else
    have hl : 0 < qf.2.length := List.length_pos.mpr h
    let k := choice % qf.2.length
    let p := qf.2.get ⟨k, Nat.mod_lt _ hl⟩
    settleOne N success contentOf p
      { s with queue := qf.1, inFlight := qf.2.eraseIdx k, done := s.done ++ [p] }

/-- The scheduler driven by a settlement-order oracle, one entry per
settlement. -/
def runP (C N : ℕ) (success : ℕ → Bool) (contentOf : ℕ → List Char)
    (choices : List ℕ) (s : PipeState) : PipeState :=
  choices.foldl (fun st c => schedStep C N success contentOf c st) s

/-- Ascending-`pageIndex` comparison used by
`pageContents.sort((a, b) => a.pageIndex - b.pageIndex)`. -/
def pageLe (a b : ℕ × List Char) : Prop := a.1 ≤ b.1

instance : DecidableRel pageLe := fun a b => Nat.decLe a.1 b.1

instance : IsTotal (ℕ × List Char) pageLe := ⟨fun a b => Nat.le_total a.1 b.1⟩

instance : IsTrans (ℕ × List Char) pageLe := ⟨fun _ _ _ h h' => Nat.le_trans h h'⟩

/-- The assembly loop of `parsePdf`:
`for (const page of pageContents) content += page.content + '\n'`. -/
def joinPages (cs : List (List Char)) : List Char :=
  cs.foldl (fun acc c => acc ++ c ++ ['\n']) []

/-- The document `parsePdf` assembles for `N` pages at concurrency `C`, given
the success and settlement-order oracles: run the pipeline over pages
`0 … N-1`, sort the shared collection by `pageIndex` ascending, concatenate. -/
def parsePdfContent (N C : ℕ) (success : ℕ → Bool) (contentOf : ℕ → List Char)
    (choices : List ℕ) : List Char :=
  joinPages
    ((List.insertionSort pageLe
        (runP C N success contentOf choices (initState (List.range N))).contents).map
      Prod.snd)

/-- The full sequence of `onProgress` calls of a completed `parsePdf` run:
`starting` with `current = 0` before any page, the `running` events of the
pipeline, and `finished` with `current = total` after finalization. -/
def parsePdfProgress (N C : ℕ) (success : ℕ → Bool) (contentOf : ℕ → List Char)
    (choices : List ℕ) : List ProgressInfo :=
  ⟨0, N, TaskStatus.starting⟩ ::
    (runP C N success contentOf choices (initState (List.range N))).events ++
      [⟨N, N, TaskStatus.finished⟩]

/-! ## Theorems -/

/-! ### Geometry lemmas -/

theorem rectOverlap_symm (a b : Rect) : rectOverlap a b = rectOverlap b a := by
  simp only [rectOverlap]
  exact decide_eq_decide.mpr (by tauto)

theorem dxGap_symm (a b : Rect) (ha : isValidRect a = true) (hb : isValidRect b = true) :
    dxGap a b = dxGap b a := by
  simp only [isValidRect, decide_eq_true_eq] at ha hb
  obtain ⟨ha1, -, -, -⟩ := ha
  obtain ⟨hb1, -, -, -⟩ := hb
  unfold dxGap
  split_ifs <;> linarith

theorem dyGap_symm (a b : Rect) (ha : isValidRect a = true) (hb : isValidRect b = true) :
    dyGap a b = dyGap b a := by
  simp only [isValidRect, decide_eq_true_eq] at ha hb
  obtain ⟨-, ha2, -, -⟩ := ha
  obtain ⟨-, hb2, -, -⟩ := hb
  unfold dyGap
  split_ifs <;> linarith

theorem isNear_symm (a b : Rect) (d : ℚ) (ha : isValidRect a = true)
    (hb : isValidRect b = true) : isNear a b d = isNear b a d := by
  unfold isNear
  rw [rectOverlap_symm a b, dxGap_symm a b ha hb, dyGap_symm a b ha hb]

/-- The decidable `isNear` agrees with the source formulation
`getDistance(rect1, rect2) < distance` (default buffer `0.1`). -/
theorem isNear_eq_getDistance (a b : Rect) (d : ℚ) :
    isNear a b d = true ↔ getDistance a b (1/10) < (d : ℝ) := by
  unfold isNear getDistance
  rcases hov : rectOverlap a b with _ | _
  · simp only [Bool.false_eq_true, if_false, decide_eq_true_eq]
    have hsub : Real.sqrt (((dxGap a b : ℚ) : ℝ) ^ 2 + ((dyGap a b : ℚ) : ℝ) ^ 2) -
        (1/10 : ℝ) * 2 < (d : ℝ) ↔
        Real.sqrt (((dxGap a b : ℚ) : ℝ) ^ 2 + ((dyGap a b : ℚ) : ℝ) ^ 2) <
          ((d + 1/5 : ℚ) : ℝ) := by
      rw [sub_lt_iff_lt_add]
      push_cast
      constructor <;> intro h <;> linarith
    rw [hsub]
    rcases le_or_lt (d + 1/5 : ℚ) 0 with hle | hpos
    · constructor
      · rintro ⟨h0, -⟩
        linarith
      · intro h
        exfalso
        have h1 : (0 : ℝ) ≤
            Real.sqrt (((dxGap a b : ℚ) : ℝ) ^ 2 + ((dyGap a b : ℚ) : ℝ) ^ 2) :=
          Real.sqrt_nonneg _
        have h2 : ((d + 1/5 : ℚ) : ℝ) ≤ 0 := by exact_mod_cast hle
        linarith
    · have hpos' : (0 : ℝ) < ((d + 1/5 : ℚ) : ℝ) := by exact_mod_cast hpos
      rw [Real.sqrt_lt' hpos']
      constructor
      · rintro ⟨-, h⟩
        have h' : ((dxGap a b ^ 2 + dyGap a b ^ 2 : ℚ) : ℝ) <
            (((d + 1/5) ^ 2 : ℚ) : ℝ) := by exact_mod_cast h
        push_cast at h' ⊢
        linarith
      · intro h
        refine ⟨hpos, ?_⟩
        have h' : ((dxGap a b ^ 2 + dyGap a b ^ 2 : ℚ) : ℝ) <
            (((d + 1/5) ^ 2 : ℚ) : ℝ) := by
          push_cast
          push_cast at h
          linarith
        exact_mod_cast h'
  · simp only [if_true, decide_eq_true_eq]
    exact_mod_cast Iff.rfl

theorem dxGap_eq_specGapX (a b : Rect) (ha : isValidRect a = true)
    (hb : isValidRect b = true) : dxGap a b = specGapX a b := by
  simp only [isValidRect, decide_eq_true_eq] at ha hb
  obtain ⟨ha1, -, -, -⟩ := ha
  obtain ⟨hb1, -, -, -⟩ := hb
  unfold dxGap specGapX
  split_ifs with h1 h2
  · rw [max_eq_right (le_max_of_le_left (by linarith)), max_eq_left (by linarith)]
  · rw [max_eq_right (le_max_of_le_right (by linarith)), max_eq_right (by linarith)]
  · rw [max_eq_left (max_le (by linarith) (by linarith))]

theorem dyGap_eq_specGapY (a b : Rect) (ha : isValidRect a = true)
    (hb : isValidRect b = true) : dyGap a b = specGapY a b := by
  simp only [isValidRect, decide_eq_true_eq] at ha hb
  obtain ⟨-, ha2, -, -⟩ := ha
  obtain ⟨-, hb2, -, -⟩ := hb
  unfold dyGap specGapY
  split_ifs with h1 h2
  · rw [max_eq_right (le_max_of_le_left (by linarith)), max_eq_left (by linarith)]
  · rw [max_eq_right (le_max_of_le_right (by linarith)), max_eq_right (by linarith)]
  · rw [max_eq_left (max_le (by linarith) (by linarith))]

/-- C4: `getDistance` returns exactly `0` when the bounding boxes overlap on
both axes; otherwise, for valid rectangles, it returns
`sqrt(dx² + dy²) − 2·buffer` with `dx`, `dy` the per-axis separations as the
spec words them (0 on an overlapping axis, else the positive gap); and a
near-overlapping pair can yield a (small) negative value. -/
theorem getDistance_spec :
    (∀ (a b : Rect) (buffer : ℝ), rectOverlap a b = true → getDistance a b buffer = 0) ∧
    (∀ (a b : Rect) (buffer : ℝ), isValidRect a = true → isValidRect b = true →
      rectOverlap a b = false →
      getDistance a b buffer =
        Real.sqrt (((specGapX a b : ℚ) : ℝ) ^ 2 + ((specGapY a b : ℚ) : ℝ) ^ 2) -
          2 * buffer) ∧
    getDistance ⟨0, 0, 1, 1⟩ ⟨21/20, 0, 2, 1⟩ (1/10) < 0 := by
  refine ⟨?_, ?_, ?_⟩
  · intro a b buffer hov
    simp [getDistance, hov]
  · intro a b buffer ha hb hov
    rw [getDistance, hov, dxGap_eq_specGapX a b ha hb, dyGap_eq_specGapY a b ha hb]
    simp only [Bool.false_eq_true, if_false]
    ring
  · have hov : rectOverlap ⟨0, 0, 1, 1⟩ ⟨21/20, 0, 2, 1⟩ = false := by
      simp only [rectOverlap, decide_eq_false_iff_not]
      rintro ⟨-, h, -⟩
      norm_num at h
    have hdx : dxGap ⟨0, 0, 1, 1⟩ ⟨21/20, 0, 2, 1⟩ = 1/20 := by
      norm_num [dxGap]
    have hdy : dyGap ⟨0, 0, 1, 1⟩ ⟨21/20, 0, 2, 1⟩ = 0 := by
      norm_num [dyGap]
    rw [getDistance, hov, hdx, hdy]
    simp only [Bool.false_eq_true, if_false]
    have hs : Real.sqrt (((1/20 : ℚ) : ℝ) ^ 2 + ((0 : ℚ) : ℝ) ^ 2) = 1/20 := by
      push_cast
      rw [show ((1:ℝ)/20) ^ 2 + (0:ℝ) ^ 2 = (1/20) ^ 2 by ring]
      rw [Real.sqrt_sq (by norm_num)]
    rw [hs]
    norm_num

/-- Witness for C4: both conditional branches applied at concrete inputs. -/
theorem getDistance_spec_report :
    getDistance ⟨0, 0, 2, 2⟩ ⟨1, 1, 3, 3⟩ (1/10) = 0 ∧
    getDistance ⟨0, 0, 1, 1⟩ ⟨4, 0, 5, 1⟩ (1/10) =
      Real.sqrt (((specGapX ⟨0, 0, 1, 1⟩ ⟨4, 0, 5, 1⟩ : ℚ) : ℝ) ^ 2 +
          ((specGapY ⟨0, 0, 1, 1⟩ ⟨4, 0, 5, 1⟩ : ℚ) : ℝ) ^ 2) - 2 * (1/10) :=
  ⟨getDistance_spec.1 _ _ _ (by norm_num [rectOverlap]),
   getDistance_spec.2.1 _ _ _ (by norm_num [isValidRect]) (by norm_num [isValidRect])
     (by simp only [rectOverlap, decide_eq_false_iff_not]; rintro ⟨-, h, -⟩; norm_num at h)⟩

/-! ### Clustering lemmas -/

theorem absorbScan_len {near : Rect → Rect → Bool} :
    ∀ (rs : List Rect) (rect : Rect), (absorbScan near rect rs).2.1.length ≤ rs.length := by
  intro rs
  induction rs with
  | nil => intro rect; simp [absorbScan]
  | cons r rs ih =>
    intro rect
    by_cases h : near rect r = true
    · simp only [absorbScan, h, if_true]
      exact Nat.le_succ_of_le (ih _)
    · simp only [absorbScan, h, if_false]
      exact Nat.succ_le_succ (ih _)

theorem absorbScan_len_lt {near : Rect → Rect → Bool} :
    ∀ (rs : List Rect) (rect : Rect), (absorbScan near rect rs).2.2 = true →
      (absorbScan near rect rs).2.1.length < rs.length := by
  intro rs
  induction rs with
  | nil => intro rect h; simp [absorbScan] at h
  | cons r rs ih =>
    intro rect hm
    by_cases h : near rect r = true
    · simp only [absorbScan, h, if_true]
      exact Nat.lt_succ_of_le (absorbScan_len rs _)
    · simp only [absorbScan, h, if_false] at hm ⊢
      exact Nat.succ_lt_succ (ih _ hm)

theorem absorbScan_false {near : Rect → Rect → Bool} :
    ∀ (rs : List Rect) (rect : Rect), (absorbScan near rect rs).2.2 = false →
      absorbScan near rect rs = (rect, rs, false) ∧ ∀ o ∈ rs, near rect o = false := by
  intro rs
  induction rs with
  | nil => intro rect _; exact ⟨rfl, by simp⟩
  | cons r rs ih =>
    intro rect hm
    by_cases h : near rect r = true
    · simp [absorbScan, h] at hm
    · simp only [absorbScan, h, if_false] at hm ⊢
      obtain ⟨h1, h2⟩ := ih rect hm
      rw [h1]
      refine ⟨rfl, ?_⟩
      intro o ho
      rcases List.mem_cons.mp ho with rfl | ho'
      · exact Bool.not_eq_true _ ▸ eq_false_of_ne_true h
      · exact h2 o ho'

theorem absorbScan_of_all_false {near : Rect → Rect → Bool} :
    ∀ (rs : List Rect) (rect : Rect), (∀ o ∈ rs, near rect o = false) →
      absorbScan near rect rs = (rect, rs, false) := by
  intro rs
  induction rs with
  | nil => intro rect _; rfl
  | cons r rs ih =>
    intro rect hall
    have h : near rect r = false := hall r (List.mem_cons_self r rs)
    simp only [absorbScan, h, Bool.false_eq_true, if_false]
    rw [ih rect fun o ho => hall o (List.mem_cons_of_mem r ho)]

theorem mergePassAux_len {near : Rect → Rect → Bool} :
    ∀ (fuel : ℕ) (l : List Rect), (mergePassAux near fuel l).1.length ≤ l.length := by
  intro fuel
  induction fuel with
  | zero => intro l; simp [mergePassAux]
  | succ fuel ih =>
    intro l
    cases l with
    | nil => simp [mergePassAux]
    | cons r rs =>
      simp only [mergePassAux, List.length_cons]
      exact Nat.succ_le_succ ((ih _).trans (absorbScan_len rs r))

theorem mergePassAux_len_lt {near : Rect → Rect → Bool} :
    ∀ (fuel : ℕ) (l : List Rect), (mergePassAux near fuel l).2 = true →
      (mergePassAux near fuel l).1.length < l.length := by
  intro fuel
  induction fuel with
  | zero => intro l h; simp [mergePassAux] at h
  | succ fuel ih =>
    intro l hm
    cases l with
    | nil => simp [mergePassAux] at hm
    | cons r rs =>
      simp only [mergePassAux, List.length_cons, Bool.or_eq_true] at hm ⊢
      rcases hm with hm | hm
      · exact Nat.succ_lt_succ
          ((mergePassAux_len fuel _).trans_lt (absorbScan_len_lt rs r hm))
      · exact Nat.succ_lt_succ ((ih _ hm).trans_le (absorbScan_len rs r))

theorem mergePassAux_false_eq {near : Rect → Rect → Bool} :
    ∀ (fuel : ℕ) (l : List Rect), (mergePassAux near fuel l).2 = false →
      (mergePassAux near fuel l).1 = l := by
  intro fuel
  induction fuel with
  | zero => intro l _; rfl
  | succ fuel ih =>
    intro l hm
    cases l with
    | nil => rfl
    | cons r rs =>
      simp only [mergePassAux, Bool.or_eq_false_iff] at hm ⊢
      obtain ⟨h1, h2⟩ := hm
      obtain ⟨heq, -⟩ := absorbScan_false rs r h1
      rw [heq] at h2 ⊢
      simp only at h2 ⊢
      rw [ih rs h2]

theorem mergePassAux_false_pairwise {near : Rect → Rect → Bool} :
    ∀ (fuel : ℕ) (l : List Rect), l.length ≤ fuel →
      (mergePassAux near fuel l).2 = false →
      l.Pairwise (fun a b => near a b = false) := by
  intro fuel
  induction fuel with
  | zero =>
    intro l hlen _
    rw [List.length_eq_zero.mp (Nat.le_zero.mp hlen)]
    exact List.Pairwise.nil
  | succ fuel ih =>
    intro l hlen hm
    cases l with
    | nil => exact List.Pairwise.nil
    | cons r rs =>
      simp only [mergePassAux, Bool.or_eq_false_iff] at hm
      obtain ⟨h1, h2⟩ := hm
      obtain ⟨heq, hall⟩ := absorbScan_false rs r h1
      rw [heq] at h2
      simp only at h2
      exact List.Pairwise.cons hall
        (ih rs (Nat.le_of_succ_le_succ hlen) h2)

theorem mergePassAux_of_pairwise {near : Rect → Rect → Bool} :
    ∀ (fuel : ℕ) (l : List Rect), l.Pairwise (fun a b => near a b = false) →
      mergePassAux near fuel l = (l, false) := by
  intro fuel
  induction fuel with
  | zero => intro l _; rfl
  | succ fuel ih =>
    intro l hp
    cases l with
    | nil => rfl
    | cons r rs =>
      rw [List.pairwise_cons] at hp
      obtain ⟨hall, hp'⟩ := hp
      simp only [mergePassAux, absorbScan_of_all_false rs r hall, ih rs hp',
        Bool.or_self]

theorem mergePass_of_pairwise {near : Rect → Rect → Bool} (l : List Rect)
    (hp : l.Pairwise (fun a b => near a b = false)) :
    mergePass near l = (l, false) :=
  mergePassAux_of_pairwise l.length l hp

theorem mergeLoopAux_fixpoint {near : Rect → Rect → Bool} :
    ∀ (fuel : ℕ) (l : List Rect), l.length ≤ fuel →
      mergePass near (mergeLoopAux near fuel l) = (mergeLoopAux near fuel l, false) := by
  intro fuel
  induction fuel with
  | zero =>
    intro l hlen
    rw [List.length_eq_zero.mp (Nat.le_zero.mp hlen)]
    rfl
  | succ fuel ih =>
    intro l hlen
    by_cases hm : (mergePass near l).2 = true
    · simp only [mergeLoopAux, hm, if_true]
      exact ih _ (Nat.le_of_lt_succ
        ((mergePassAux_len_lt l.length l hm).trans_le hlen))
    · rw [Bool.not_eq_true] at hm
      simp only [mergeLoopAux, hm, Bool.false_eq_true, if_false]
      have h1 : (mergePass near l).1 = l := mergePassAux_false_eq l.length l hm
      rw [h1]
      exact Prod.ext h1 hm

theorem mergeLoopAux_of_fixpoint {near : Rect → Rect → Bool} (fuel : ℕ)
    (l : List Rect) (h : mergePass near l = (l, false)) :
    mergeLoopAux near fuel l = l := by
  cases fuel with
  | zero => rfl
  | succ fuel => simp [mergeLoopAux, h]

theorem filter_isValidRect_idem (l : List Rect) :
    (l.filter isValidRect).filter isValidRect = l.filter isValidRect :=
  List.filter_eq_self.mpr fun _ hx => List.of_mem_filter hx

/-- The working list of `mergeRects` at its fixpoint, before the final
validity filter, is pairwise non-near. -/
theorem mergeRects_core_pairwise (R : List Rect) (d : ℚ) (hd : Option ℚ) :
    (mergeLoopAux (mergeNear d hd) (R.filter isValidRect).length
        (R.filter isValidRect)).Pairwise
      (fun a b => mergeNear d hd a b = false) := by
  have hfix := @mergeLoopAux_fixpoint (mergeNear d hd)
    (R.filter isValidRect).length (R.filter isValidRect) le_rfl
  set lf := mergeLoopAux (mergeNear d hd) (R.filter isValidRect).length
    (R.filter isValidRect) with hlf
  have : (mergePassAux (mergeNear d hd) lf.length lf).2 = false := by
    rw [show mergePassAux (mergeNear d hd) lf.length lf = mergePass (mergeNear d hd) lf
      from rfl, hfix]
  exact mergePassAux_false_pairwise lf.length lf le_rfl this

/-- C3: `mergeRects` is idempotent — rerunning it on its own output returns
that output unchanged, same rectangles in the same order. -/
theorem mergeRects_idempotent (R : List Rect) (d : ℚ) :
    mergeRects (mergeRects R d none) d none = mergeRects R d none := by
  have hpw : (mergeRects R d none).Pairwise
      (fun a b => mergeNear d none a b = false) :=
    (mergeRects_core_pairwise R d none).sublist (List.filter_sublist _)
  show ((mergeLoopAux (mergeNear d none)
      ((mergeRects R d none).filter isValidRect).length
      ((mergeRects R d none).filter isValidRect)).filter isValidRect) = mergeRects R d none
  have hself : (mergeRects R d none).filter isValidRect = mergeRects R d none := by
    show ((mergeLoopAux (mergeNear d none) (R.filter isValidRect).length
      (R.filter isValidRect)).filter isValidRect).filter isValidRect = _
    exact filter_isValidRect_idem _
  rw [hself, mergeLoopAux_of_fixpoint _ _ (mergePass_of_pairwise _ hpw), hself]

/-- C9: the rectangles produced by `mergeRects` with no horizontal threshold
are pairwise non-near — for any two distinct positions in the output, in
either order, `isNear` is false. -/
theorem mergeRects_pairwise_not_near (R : List Rect) (d : ℚ) :
    (mergeRects R d none).Pairwise
      (fun u v => isNear u v d = false ∧ isNear v u d = false) := by
  have hpw : (mergeRects R d none).Pairwise
      (fun a b => mergeNear d none a b = false) :=
    (mergeRects_core_pairwise R d none).sublist (List.filter_sublist _)
  have hmem : ∀ x ∈ mergeRects R d none, isValidRect x = true := fun x hx =>
    List.of_mem_filter hx
  refine hpw.imp_of_mem ?_
  intro a b ha hb hnear
  have h1 : isNear a b d = false := by
    have : mergeNear d none a b = isNear a b d := by
      simp [mergeNear]
    rw [← this]
    exact hnear
  exact ⟨h1, (isNear_symm b a d (hmem b hb) (hmem a ha)).trans h1⟩

/-! ### Adsorption lemmas -/

theorem adsorbOne_length {d : ℚ} {s : Rect} :
    ∀ (T T' : List Rect), adsorbOne d s T = some T' → T'.length = T.length := by
  intro T
  induction T with
  | nil => intro T' h; simp [adsorbOne] at h
  | cons t ts ih =>
    intro T' h
    by_cases hn : isNear s t d = true
    · simp only [adsorbOne, hn, if_true, Option.some.injEq] at h
      rw [← h]
      simp
    · rcases hrec : adsorbOne d s ts with _ | tl
      · simp [adsorbOne, hn, hrec] at h
      · simp only [adsorbOne, hn, Bool.false_eq_true, if_false, hrec,
          Option.map_some', Option.some.injEq] at h
        subst h
        simp [ih tl hrec]

/-- C5: `adsorbRectsToRects` keeps the target list length, returns the
unabsorbed sources as a subsequence of the sources (each unchanged, in
order), and `adsorbOne` — its per-source target scan — merges the source
into exactly the first target in scan order that is near it, replacing only
that target by the union. -/
theorem adsorbRectsToRects_spec (S T : List Rect) (d : ℚ) :
    (adsorbRectsToRects S T d).2.length = T.length ∧
    (adsorbRectsToRects S T d).1.Sublist S ∧
    ∀ (s : Rect) (T' : List Rect), adsorbOne d s T = some T' →
      ∃ i, ∃ hi : i < T.length,
        isNear s (T.get ⟨i, hi⟩) d = true ∧
        (∀ j (hj : j < T.length), j < i → isNear s (T.get ⟨j, hj⟩) d = false) ∧
        T' = T.set i (unionRects s (T.get ⟨i, hi⟩)) := by
  refine ⟨?_, ?_, ?_⟩
  · induction S generalizing T with
    | nil => rfl
    | cons s ss ih =>
      rcases h : adsorbOne d s T with _ | ts
      · simpa only [adsorbRectsToRects, h] using ih T
      · simp only [adsorbRectsToRects, h]
        rw [ih ts, adsorbOne_length T ts h]
  · induction S generalizing T with
    | nil => exact List.Sublist.refl _
    | cons s ss ih =>
      rcases h : adsorbOne d s T with _ | ts
      · simp only [adsorbRectsToRects, h]
        exact List.Sublist.cons₂ s (ih T)
      · simp only [adsorbRectsToRects, h]
        exact List.Sublist.cons s (ih ts)
  · intro s
    induction T with
    | nil => intro T' h; simp [adsorbOne] at h
    | cons t ts ih =>
      intro T' h
      by_cases hn : isNear s t d = true
      · simp only [adsorbOne, hn, if_true, Option.some.injEq] at h
        refine ⟨0, Nat.succ_pos _, hn, ?_, ?_⟩
        · intro j hj hj0
          exact absurd hj0 (Nat.not_lt_zero j)
        · simp [← h]
      · rcases hrec : adsorbOne d s ts with _ | tl
        · simp [adsorbOne, hn, hrec] at h
        obtain rfl : T' = t :: tl := by
          simp only [adsorbOne, hn, Bool.false_eq_true, if_false, hrec,
            Option.map_some', Option.some.injEq] at h
          exact h.symm
        obtain ⟨i, hi, h1, h2, h3⟩ := ih tl hrec
        refine ⟨i + 1, Nat.succ_lt_succ hi, ?_, ?_, ?_⟩
        · simpa using h1
        · intro j hj hji
          cases j with
          | zero =>
            simpa using eq_false_of_ne_true hn
          | succ j' =>
            have hj' : j' < ts.length := Nat.lt_of_succ_lt_succ hj
            have := h2 j' hj' (Nat.lt_of_succ_lt_succ hji)
            simpa using this
        · simp only [List.set_cons_succ, List.cons.injEq]
          exact ⟨trivial, by simpa using h3⟩

/-- Witness for C5: a single source absorbed into a single near target. -/
theorem adsorbRectsToRects_spec_report :
    (adsorbRectsToRects [⟨0, 0, 1, 1⟩] [⟨1, 0, 2, 1⟩] 5).2.length =
        ([⟨1, 0, 2, 1⟩] : List Rect).length ∧
    (adsorbRectsToRects [⟨0, 0, 1, 1⟩] [⟨1, 0, 2, 1⟩] 5).1.Sublist [⟨0, 0, 1, 1⟩] ∧
    ∃ i, ∃ hi : i < ([⟨1, 0, 2, 1⟩] : List Rect).length,
      isNear ⟨0, 0, 1, 1⟩ (([⟨1, 0, 2, 1⟩] : List Rect).get ⟨i, hi⟩) 5 = true ∧
      (∀ j (hj : j < ([⟨1, 0, 2, 1⟩] : List Rect).length), j < i →
        isNear ⟨0, 0, 1, 1⟩ (([⟨1, 0, 2, 1⟩] : List Rect).get ⟨j, hj⟩) 5 = false) ∧
      [⟨0, 0, 2, 1⟩] = ([⟨1, 0, 2, 1⟩] : List Rect).set i
        (unionRects ⟨0, 0, 1, 1⟩ (([⟨1, 0, 2, 1⟩] : List Rect).get ⟨i, hi⟩)) :=
  ⟨(adsorbRectsToRects_spec [⟨0, 0, 1, 1⟩] [⟨1, 0, 2, 1⟩] 5).1,
   (adsorbRectsToRects_spec [⟨0, 0, 1, 1⟩] [⟨1, 0, 2, 1⟩] 5).2.1,
   (adsorbRectsToRects_spec [⟨0, 0, 1, 1⟩] [⟨1, 0, 2, 1⟩] 5).2.2 ⟨0, 0, 1, 1⟩ [⟨0, 0, 2, 1⟩]
     (by norm_num [adsorbOne, isNear, rectOverlap, unionRects, min_def, max_def])⟩

/-! ### Line splitting and joining lemmas -/

theorem joinLines_splitLinesAux : ∀ s : List Char,
    joinLines ((splitLinesAux s).1 :: (splitLinesAux s).2) = s := by
  intro s
  induction s with
  | nil => rfl
  | cons c cs ih =>
    by_cases h : c = '\n'
    · subst h
      simp only [splitLinesAux, eq_self_iff_true, if_true]
      simp only [joinLines, List.nil_append]
      rw [ih]
    · simp only [splitLinesAux, h, if_false]
      rcases htail : (splitLinesAux cs).2 with _ | ⟨l2, ls⟩
      · rw [htail] at ih
        simp only [joinLines] at ih
        simp only [joinLines]
        rw [ih]
      · rw [htail] at ih
        simp only [joinLines] at ih
        simp only [joinLines, List.cons_append]
        rw [ih]

theorem joinLines_splitLines (s : List Char) : joinLines (splitLines s) = s :=
  joinLines_splitLinesAux s

theorem splitLinesAux_no_newline : ∀ s : List Char,
    '\n' ∉ (splitLinesAux s).1 ∧ ∀ l ∈ (splitLinesAux s).2, '\n' ∉ l := by
  intro s
  induction s with
  | nil => exact ⟨List.not_mem_nil _, by simp [splitLinesAux]⟩
  | cons c cs ih =>
    by_cases h : c = '\n'
    · subst h
      simp only [splitLinesAux, if_true]
      refine ⟨List.not_mem_nil _, ?_⟩
      intro l hl
      rcases List.mem_cons.mp hl with rfl | hl'
      · exact ih.1
      · exact ih.2 l hl'
    · simp only [splitLinesAux, h, if_false]
      refine ⟨?_, ih.2⟩
      intro hmem
      rcases List.mem_cons.mp hmem with heq | hmem'
      · exact h heq.symm
      · exact ih.1 hmem'

theorem splitLines_no_newline (s : List Char) :
    ∀ l ∈ splitLines s, '\n' ∉ l := by
  intro l hl
  rcases List.mem_cons.mp hl with rfl | hl'
  · exact (splitLinesAux_no_newline s).1
  · exact (splitLinesAux_no_newline s).2 l hl'

theorem splitLinesAux_of_no_newline : ∀ l : List Char, '\n' ∉ l →
    splitLinesAux l = (l, []) := by
  intro l
  induction l with
  | nil => intro _; rfl
  | cons c cs ih =>
    intro h
    have hc : ¬(c = '\n') := fun hc => h (hc ▸ List.mem_cons_self c cs)
    simp only [splitLinesAux, hc, if_false]
    rw [ih fun hm => h (List.mem_cons_of_mem c hm)]

theorem splitLinesAux_append : ∀ (l t : List Char), '\n' ∉ l →
    splitLinesAux (l ++ '\n' :: t) =
      (l, (splitLinesAux t).1 :: (splitLinesAux t).2) := by
  intro l
  induction l with
  | nil => intro t _; rfl
  | cons c cs ih =>
    intro t h
    have hc : ¬(c = '\n') := fun hc => h (hc ▸ List.mem_cons_self c cs)
    simp only [List.cons_append, splitLinesAux, hc, if_false, List.append_eq]
    rw [ih t fun hm => h (List.mem_cons_of_mem c hm)]

theorem splitLines_joinLines : ∀ ls : List (List Char), ls ≠ [] →
    (∀ l ∈ ls, '\n' ∉ l) → splitLines (joinLines ls) = ls := by
  intro ls
  induction ls with
  | nil => intro h _; exact absurd rfl h
  | cons l ls ih =>
    intro _ hnl
    cases ls with
    | nil =>
      show splitLines (joinLines [l]) = [l]
      simp only [joinLines, splitLines]
      rw [splitLinesAux_of_no_newline l (hnl l (List.mem_cons_self l []))]
    | cons l2 ls2 =>
      show splitLines (l ++ '\n' :: joinLines (l2 :: ls2)) = l :: l2 :: ls2
      simp only [splitLines]
      rw [splitLinesAux_append l _ (hnl l (List.mem_cons_self l _))]
      have := ih (List.cons_ne_nil l2 ls2)
        (fun x hx => hnl x (List.mem_cons_of_mem l hx))
      simp only [splitLines] at this
      rw [show ((splitLinesAux (joinLines (l2 :: ls2))).1 ::
        (splitLinesAux (joinLines (l2 :: ls2))).2 : List (List Char)) = l2 :: ls2
        from this]

/-! ### Heading rewrite lemmas -/

theorem match1_content_sublist {line content : List Char}
    (h : match1 line = some content) : content.Sublist line := by
  unfold match1 at h
  split_ifs at h with hh
  · have h1 : content = (line.dropWhile (· = '#')).dropWhile isWsChar :=
      (Option.some.injEq _ _ ▸ h).symm
    rw [h1]
    exact ((List.dropWhile_sublist _).trans (List.dropWhile_sublist _))

theorem processLine_no_newline (m : List (List Char × ℕ)) (line : List Char)
    (h : '\n' ∉ line) : '\n' ∉ processLine m line := by
  rcases h1 : match1 line with _ | content
  · simpa only [processLine, h1] using h
  · rcases h2 : mapGet m content with _ | level
    · simpa only [processLine, h1, h2] using h
    · simp only [processLine, h1, h2]
      intro hmem
      rcases List.mem_append.mp hmem with hl | hr
      · exact absurd (List.eq_of_mem_replicate hl) (by decide)
      · rcases List.mem_cons.mp hr with heq | hc
        · exact absurd heq (by decide)
        · exact h ((match1_content_sublist h1).mem hc)

theorem adjust_splitLines (md nt : List Char) :
    splitLines (adjustMarkdownHeadings md nt) =
      (splitLines md).map (processLine (createTitleLevelMap nt)) := by
  unfold adjustMarkdownHeadings
  apply splitLines_joinLines
  · simp [splitLines]
  · intro l hl
    obtain ⟨l0, hl0, rfl⟩ := List.mem_map.mp hl
    exact processLine_no_newline _ l0 (splitLines_no_newline md l0 hl0)

theorem match1_decomp {line content : List Char} (h : match1 line = some content) :
    ∃ (n : ℕ) (w : List Char), 1 ≤ n ∧ (∀ c ∈ w, isWsChar c = true) ∧
      line = List.replicate n '#' ++ w ++ content := by
  unfold match1 at h
  split_ifs at h with hh
  have hcontent : content = (line.dropWhile (· = '#')).dropWhile isWsChar :=
    (Option.some.injEq _ _ ▸ h).symm
  refine ⟨(line.takeWhile (· = '#')).length, (line.dropWhile (· = '#')).takeWhile isWsChar,
    ?_, ?_, ?_⟩
  · cases line with
    | nil => simp at hh
    | cons c cs =>
      have : c = '#' := by simpa using hh
      subst this
      simp [List.takeWhile]
  · intro c hc
    exact List.mem_takeWhile_imp hc
  · have hrep : line.takeWhile (· = '#') =
        List.replicate (line.takeWhile (· = '#')).length '#' := by
      apply List.eq_replicate_of_mem
      intro c hc
      simpa using List.mem_takeWhile_imp hc
    rw [hcontent, List.append_assoc, List.takeWhile_append_dropWhile, ← hrep,
      List.takeWhile_append_dropWhile]

theorem match1_eq_none_iff (line : List Char) :
    match1 line = none ↔ line.head? ≠ some '#' := by
  unfold match1
  split_ifs with h
  · simp [h]
  · simp [h]

/-- C6: a heading line whose captured text has no binding in the corrected
outline's text-to-level map is reproduced by `adjustMarkdownHeadings`
completely unchanged at its original position — neither removed nor
renumbered. -/
theorem adjustMarkdownHeadings_unmatched (md nt : List Char) (i : ℕ)
    (line content : List Char)
    (h1 : (splitLines md)[i]? = some line)
    (h2 : match1 line = some content)
    (h3 : mapGet (createTitleLevelMap nt) content = none) :
    (splitLines (adjustMarkdownHeadings md nt))[i]? = some line := by
  rw [adjust_splitLines, List.getElem?_map, h1, Option.map_some']
  simp [processLine, h2, h3]

/-- Witness for C6: the heading `# A` is absent from the outline `## B` and
passes through unchanged. -/
theorem adjustMarkdownHeadings_unmatched_report :
    (splitLines (adjustMarkdownHeadings ("# A".toList) ("## B".toList)))[0]? =
      some ("# A".toList) :=
  adjustMarkdownHeadings_unmatched ("# A".toList) ("## B".toList) 0 ("# A".toList)
    ("A".toList) (by decide) (by decide) (by decide)

/-- C8: a model response with no markdown fence makes
`extractMdFromLLMOutput` return `undefined`, and heading correction with an
empty outline is the identity on the assembled content. -/
theorem extractMd_soft_failure :
    (∀ output : List Char, firstOcc mdFenceTag output = none →
      extractMdFromLLMOutput output = none) ∧
    (∀ c : List Char, adjustMarkdownHeadings c [] = c) := by
  constructor
  · intro output h
    unfold extractMdFromLLMOutput
    rw [h]
  · intro c
    have hpl : ∀ line, processLine [] line = line := by
      intro line
      rcases h1 : match1 line with _ | content
      · simp [processLine, h1]
      · simp [processLine, h1, mapGet]
    have hmapid : ∀ ls : List (List Char), ls.map (processLine []) = ls := by
      intro ls
      induction ls with
      | nil => rfl
      | cons a as iha => simp [hpl a, iha]
    show joinLines ((splitLines c).map (processLine (createTitleLevelMap []))) = c
    rw [show createTitleLevelMap [] = [] from rfl, hmapid, joinLines_splitLines]

/-- Witness for C8: a fence-free response and a concrete passthrough. -/
theorem extractMd_soft_failure_report :
    extractMdFromLLMOutput ("no fences here".toList) = none ∧
    adjustMarkdownHeadings ("# A\nbody".toList) [] = "# A\nbody".toList :=
  ⟨extractMd_soft_failure.1 ("no fences here".toList) (by decide),
   extractMd_soft_failure.2 ("# A\nbody".toList)⟩

/-- C10: `adjustMarkdownHeadings` preserves the line count; a line not
starting with `'#'` is reproduced verbatim at its position; a heading line is
either left unchanged (text not in the outline map) or rewritten to exactly
`'#' * level + ' ' + text`, keeping the captured heading text and touching
only the marker run and the whitespace after it. -/
theorem adjustMarkdownHeadings_frame (md nt : List Char) :
    (splitLines (adjustMarkdownHeadings md nt)).length = (splitLines md).length ∧
    ∀ (i : ℕ) (line : List Char), (splitLines md)[i]? = some line →
      (line.head? ≠ some '#' →
        (splitLines (adjustMarkdownHeadings md nt))[i]? = some line) ∧
      ∀ content : List Char, match1 line = some content →
        (mapGet (createTitleLevelMap nt) content = none →
          (splitLines (adjustMarkdownHeadings md nt))[i]? = some line) ∧
        ∀ level : ℕ, mapGet (createTitleLevelMap nt) content = some level →
          (splitLines (adjustMarkdownHeadings md nt))[i]? =
            some (List.replicate level '#' ++ ' ' :: content) ∧
          ∃ (n : ℕ) (w : List Char), 1 ≤ n ∧ (∀ c ∈ w, isWsChar c = true) ∧
            line = List.replicate n '#' ++ w ++ content := by
  constructor
  · rw [adjust_splitLines]
    simp
  · intro i line h1
    refine ⟨?_, ?_⟩
    · intro hhead
      rw [adjust_splitLines, List.getElem?_map, h1, Option.map_some']
      have hm : match1 line = none := (match1_eq_none_iff line).mpr hhead
      simp [processLine, hm]
    · intro content h2
      refine ⟨?_, ?_⟩
      · intro h3
        rw [adjust_splitLines, List.getElem?_map, h1, Option.map_some']
        simp [processLine, h2, h3]
      · intro level h3
        refine ⟨?_, match1_decomp h2⟩
        rw [adjust_splitLines, List.getElem?_map, h1, Option.map_some']
        simp [processLine, h2, h3]

/-- Witness for C10: line count kept, a plain line reproduced verbatim, and a
matched heading rewritten to the corrected level with its text kept. -/
theorem adjustMarkdownHeadings_frame_report :
    (splitLines (adjustMarkdownHeadings ("# A\nplain\n## B".toList) ("### A".toList))).length =
        (splitLines ("# A\nplain\n## B".toList)).length ∧
    (splitLines (adjustMarkdownHeadings ("# A\nplain\n## B".toList) ("### A".toList)))[1]? =
        some ("plain".toList) ∧
    (splitLines (adjustMarkdownHeadings ("# A\nplain\n## B".toList) ("### A".toList)))[0]? =
        some (List.replicate 3 '#' ++ ' ' :: "A".toList) :=
  ⟨(adjustMarkdownHeadings_frame ("# A\nplain\n## B".toList) ("### A".toList)).1,
   ((adjustMarkdownHeadings_frame ("# A\nplain\n## B".toList) ("### A".toList)).2 1
      ("plain".toList) (by decide)).1 (by decide),
   ((((adjustMarkdownHeadings_frame ("# A\nplain\n## B".toList) ("### A".toList)).2 0
      ("# A".toList) (by decide)).2 ("A".toList) (by decide)).2 3 (by decide)).1⟩

/-! ### Pipeline scheduler lemmas -/

theorem fill_snd_le (C : ℕ) : ∀ (q f : List ℕ), f.length ≤ C →
    (fill C q f).2.length ≤ C := by
  intro q
  induction q with
  | nil => intro f h; exact h
  | cons x xs ih =>
    intro f h
    by_cases hlt : f.length < C
    · simp only [fill, hlt, if_true]
      exact ih _ (by simp; omega)
    · simp only [fill, hlt, if_false]
      exact h

theorem fill_snd_ne_nil (C : ℕ) (hC : 1 ≤ C) : ∀ (q f : List ℕ),
    q ≠ [] ∨ f ≠ [] → (fill C q f).2 ≠ [] := by
  intro q
  induction q with
  | nil =>
    intro f h
    rcases h with h | h
    · exact absurd rfl h
    · exact h
  | cons x xs ih =>
    intro f _
    by_cases hlt : f.length < C
    · simp only [fill, hlt, if_true]
      exact ih _ (Or.inr (by simp))
    · simp only [fill, hlt, if_false]
      intro hf
      exact hlt (by simp [hf]; omega)

theorem fill_perm (C : ℕ) : ∀ (q f : List ℕ),
    ((fill C q f).1 ++ (fill C q f).2).Perm (q ++ f) := by
  intro q
  induction q with
  | nil => intro f; simp [fill]
  | cons x xs ih =>
    intro f
    by_cases hlt : f.length < C
    · simp only [fill, hlt, if_true]
      refine (ih _).trans ?_
      exact (List.Perm.append_left xs (List.perm_append_singleton x f)).trans
        List.perm_middle
    · simp only [fill, hlt, if_false]
      exact List.Perm.refl _

theorem perm_get_cons_eraseIdx : ∀ (l : List ℕ) (k : ℕ) (h : k < l.length),
    l.Perm (l.get ⟨k, h⟩ :: l.eraseIdx k) := by
  intro l
  induction l with
  | nil => intro k h; simp at h
  | cons x xs ih =>
    intro k h
    cases k with
    | zero => exact List.Perm.refl _
    | succ k' =>
      have h' : k' < xs.length := Nat.lt_of_succ_lt_succ h
      show (x :: xs).Perm (xs.get ⟨k', h'⟩ :: x :: xs.eraseIdx k')
      exact ((ih k' h').cons x).trans
        (List.Perm.swap (xs.get ⟨k', h'⟩) x (xs.eraseIdx k'))

theorem settleOne_queue (N : ℕ) (su : ℕ → Bool) (co : ℕ → List Char) (p : ℕ)
    (s : PipeState) : (settleOne N su co p s).queue = s.queue := by
  unfold settleOne
  split_ifs <;> rfl

theorem settleOne_inFlight (N : ℕ) (su : ℕ → Bool) (co : ℕ → List Char) (p : ℕ)
    (s : PipeState) : (settleOne N su co p s).inFlight = s.inFlight := by
  unfold settleOne
  split_ifs <;> rfl

theorem settleOne_done (N : ℕ) (su : ℕ → Bool) (co : ℕ → List Char) (p : ℕ)
    (s : PipeState) : (settleOne N su co p s).done = s.done := by
  unfold settleOne
  split_ifs <;> rfl

theorem schedStep_eq_of_nil {C N : ℕ} {su : ℕ → Bool} {co : ℕ → List Char}
    {choice : ℕ} {s : PipeState} (hf : (fill C s.queue s.inFlight).2 = []) :
    schedStep C N su co choice s =
      { s with queue := (fill C s.queue s.inFlight).1,
               inFlight := (fill C s.queue s.inFlight).2 } := by
  unfold schedStep
  rw [dif_pos hf]

theorem schedStep_eq_of_ne {C N : ℕ} {su : ℕ → Bool} {co : ℕ → List Char}
    {choice : ℕ} {s : PipeState} (hf : (fill C s.queue s.inFlight).2 ≠ []) :
    schedStep C N su co choice s =
      settleOne N su co
        ((fill C s.queue s.inFlight).2.get
          ⟨choice % (fill C s.queue s.inFlight).2.length,
           Nat.mod_lt _ (List.length_pos.mpr hf)⟩)
        { s with queue := (fill C s.queue s.inFlight).1,
                 inFlight := (fill C s.queue s.inFlight).2.eraseIdx
                   (choice % (fill C s.queue s.inFlight).2.length),
                 done := s.done ++
                   [(fill C s.queue s.inFlight).2.get
                     ⟨choice % (fill C s.queue s.inFlight).2.length,
                      Nat.mod_lt _ (List.length_pos.mpr hf)⟩] } := by
  unfold schedStep
  rw [dif_neg hf]

theorem schedStep_of_empty {C N : ℕ} {su : ℕ → Bool} {co : ℕ → List Char}
    {choice : ℕ} {s : PipeState} (hq : s.queue = []) (hif : s.inFlight = []) :
    schedStep C N su co choice s = s := by
  cases s with
  | mk q f d c e =>
    simp only at hq hif
    subst hq
    subst hif
    rfl

theorem fill_total (C : ℕ) (q f : List ℕ) :
    (fill C q f).1.length + (fill C q f).2.length = q.length + f.length := by
  have h := (fill_perm C q f).length_eq
  simpa using h

theorem perm_step_general (A E D B : List ℕ) (p : ℕ) (q f : List ℕ)
    (hB : B.Perm (p :: E)) (hAB : ((A ++ B)).Perm (q ++ f)) :
    (A ++ E ++ (D ++ [p])).Perm (q ++ f ++ D) := by
  refine (List.Perm.append_left (A ++ E) (List.perm_append_singleton p D)).trans ?_
  rw [List.append_assoc]
  refine (List.Perm.append_left A List.perm_middle).trans ?_
  refine (List.Perm.append_left A (List.Perm.append_right D hB.symm)).trans ?_
  rw [← List.append_assoc]
  exact List.Perm.append_right D hAB

theorem schedStep_flight_le {C N : ℕ} {su : ℕ → Bool} {co : ℕ → List Char}
    {choice : ℕ} {s : PipeState} (h : s.inFlight.length ≤ C) :
    (schedStep C N su co choice s).inFlight.length ≤ C := by
  by_cases hf : (fill C s.queue s.inFlight).2 = []
  · rw [schedStep_eq_of_nil hf]
    simp [hf]
  · rw [schedStep_eq_of_ne hf, settleOne_inFlight]
    dsimp only
    rw [List.length_eraseIdx]
    have hle : (fill C s.queue s.inFlight).2.length ≤ C := fill_snd_le C _ _ h
    split_ifs <;> omega

theorem schedStep_perm {C N : ℕ} {su : ℕ → Bool} {co : ℕ → List Char}
    {choice : ℕ} {s : PipeState} :
    ((schedStep C N su co choice s).queue ++ (schedStep C N su co choice s).inFlight ++
        (schedStep C N su co choice s).done).Perm
      (s.queue ++ s.inFlight ++ s.done) := by
  by_cases hf : (fill C s.queue s.inFlight).2 = []
  · rw [schedStep_eq_of_nil hf]
    exact List.Perm.append_right s.done (fill_perm C _ _)
  · rw [schedStep_eq_of_ne hf, settleOne_queue, settleOne_inFlight, settleOne_done]
    exact perm_step_general _ _ _ _ _ _ _
      (perm_get_cons_eraseIdx _ _ _) (fill_perm C _ _)

theorem schedStep_contents_events {C N : ℕ} {su : ℕ → Bool} {co : ℕ → List Char}
    {choice : ℕ} {s : PipeState}
    (h2 : s.contents = (s.done.filter (fun i => su i)).map (fun i => (i, co i)))
    (h3 : s.events = (List.range s.contents.length).map
      (fun k => ⟨k + 1, N, TaskStatus.running⟩)) :
    (schedStep C N su co choice s).contents =
      ((schedStep C N su co choice s).done.filter (fun i => su i)).map
        (fun i => (i, co i)) ∧
    (schedStep C N su co choice s).events =
      (List.range (schedStep C N su co choice s).contents.length).map
        (fun k => ⟨k + 1, N, TaskStatus.running⟩) := by
  by_cases hf : (fill C s.queue s.inFlight).2 = []
  · rw [schedStep_eq_of_nil hf]
    exact ⟨h2, h3⟩
  · rw [schedStep_eq_of_ne hf]
    set p := (fill C s.queue s.inFlight).2.get
      ⟨choice % (fill C s.queue s.inFlight).2.length,
       Nat.mod_lt _ (List.length_pos.mpr hf)⟩ with hp
    by_cases hsu : su p = true
    · simp only [settleOne, hsu, if_true]
      constructor
      · rw [List.filter_append, List.map_append, ← h2]
        simp [hsu]
      · rw [h3]
        have hlen : (s.contents ++ [(p, co p)]).length = s.contents.length + 1 := by
          simp
        rw [hlen, List.range_succ, List.map_append]
        simp
    · simp only [settleOne, hsu, Bool.false_eq_true, if_false]
      constructor
      · rw [List.filter_append, List.map_append, ← h2]
        simp [hsu]
      · exact h3

theorem runP_cons (C N : ℕ) (su : ℕ → Bool) (co : ℕ → List Char) (c : ℕ)
    (cs : List ℕ) (s : PipeState) :
    runP C N su co (c :: cs) s = runP C N su co cs (schedStep C N su co c s) := rfl

theorem runP_inv (C N : ℕ) (su : ℕ → Bool) (co : ℕ → List Char) :
    ∀ (choices : List ℕ) (s : PipeState),
      s.inFlight.length ≤ C →
      s.contents = (s.done.filter (fun i => su i)).map (fun i => (i, co i)) →
      s.events = (List.range s.contents.length).map
        (fun k => ⟨k + 1, N, TaskStatus.running⟩) →
      (runP C N su co choices s).inFlight.length ≤ C ∧
      (runP C N su co choices s).contents =
        ((runP C N su co choices s).done.filter (fun i => su i)).map
          (fun i => (i, co i)) ∧
      (runP C N su co choices s).events =
        (List.range (runP C N su co choices s).contents.length).map
          (fun k => ⟨k + 1, N, TaskStatus.running⟩) ∧
      ((runP C N su co choices s).queue ++ (runP C N su co choices s).inFlight ++
          (runP C N su co choices s).done).Perm
        (s.queue ++ s.inFlight ++ s.done) := by
  intro choices
  induction choices with
  | nil =>
    intro s h1 h2 h3
    exact ⟨h1, h2, h3, List.Perm.refl _⟩
  | cons c cs ih =>
    intro s h1 h2 h3
    rw [runP_cons]
    obtain ⟨g2, g3⟩ := @schedStep_contents_events C N su co c s h2 h3
    obtain ⟨r1, r2, r3, r4⟩ := ih (schedStep C N su co c s)
      (schedStep_flight_le h1) g2 g3
    exact ⟨r1, r2, r3, r4.trans schedStep_perm⟩

theorem runP_drain (C N : ℕ) (su : ℕ → Bool) (co : ℕ → List Char) (hC : 1 ≤ C) :
    ∀ (choices : List ℕ) (s : PipeState),
      s.queue.length + s.inFlight.length ≤ choices.length →
      (runP C N su co choices s).queue = [] ∧
      (runP C N su co choices s).inFlight = [] := by
  intro choices
  induction choices with
  | nil =>
    intro s hlen
    simp only [List.length_nil, Nat.le_zero, Nat.add_eq_zero] at hlen
    exact ⟨List.length_eq_zero.mp hlen.1, List.length_eq_zero.mp hlen.2⟩
  | cons c cs ih =>
    intro s hlen
    rw [runP_cons]
    by_cases hq : s.queue = [] ∧ s.inFlight = []
    · rw [schedStep_of_empty hq.1 hq.2]
      exact ih s (by simp [hq.1, hq.2])
    · have hne : s.queue ≠ [] ∨ s.inFlight ≠ [] := by tauto
      have hf : (fill C s.queue s.inFlight).2 ≠ [] := fill_snd_ne_nil C hC _ _ hne
      apply ih
      rw [schedStep_eq_of_ne hf, settleOne_queue, settleOne_inFlight]
      dsimp only
      rw [List.length_eraseIdx]
      have htot := fill_total C s.queue s.inFlight
      have hpos : 0 < (fill C s.queue s.inFlight).2.length := List.length_pos.mpr hf
      have hrem : 1 ≤ s.queue.length + s.inFlight.length := by
        rcases hne with h | h
        · have := List.length_pos.mpr h
          omega
        · have := List.length_pos.mpr h
          omega
      simp only [List.length_cons] at hlen
      have hklt : c % (fill C s.queue s.inFlight).2.length <
          (fill C s.queue s.inFlight).2.length := Nat.mod_lt _ hpos
      split_ifs <;> omega

/-- C2: with concurrency `C ≥ 1` and a queue of `N ≥ C` items, at no point of
the run — neither right after a refill nor between steps — are more than `C`
invocations in flight, and after `N` settlements every queued item has been
started and settled exactly once (the settled multiset is a permutation of
the items), regardless of which invocations failed. -/
theorem processInParallel_bounded (items : List ℕ) (C N : ℕ) (su : ℕ → Bool)
    (co : ℕ → List Char) (choices : List ℕ) (hC : 1 ≤ C) (hN : C ≤ items.length)
    (hlen : choices.length = items.length) :
    (∀ k : ℕ,
      (runP C N su co (choices.take k) (initState items)).inFlight.length ≤ C ∧
      (fill C (runP C N su co (choices.take k) (initState items)).queue
          (runP C N su co (choices.take k) (initState items)).inFlight).2.length ≤ C) ∧
    ((runP C N su co choices (initState items)).done).Perm items ∧
    (runP C N su co choices (initState items)).queue = [] ∧
    (runP C N su co choices (initState items)).inFlight = [] := by
  have hinit1 : (initState items).inFlight.length ≤ C := by simp [initState]
  have hinit2 : (initState items).contents =
      (((initState items).done).filter (fun i => su i)).map (fun i => (i, co i)) := rfl
  have hinit3 : (initState items).events =
      (List.range (initState items).contents.length).map
        (fun k => ⟨k + 1, N, TaskStatus.running⟩) := rfl
  refine ⟨?_, ?_, ?_⟩
  · intro k
    obtain ⟨r1, -, -, -⟩ := runP_inv C N su co (choices.take k) (initState items)
      hinit1 hinit2 hinit3
    exact ⟨r1, fill_snd_le C _ _ r1⟩
  · obtain ⟨-, -, -, r4⟩ := runP_inv C N su co choices (initState items)
      hinit1 hinit2 hinit3
    obtain ⟨d1, d2⟩ := runP_drain C N su co hC choices (initState items)
      (by simp [initState, hlen])
    rw [d1, d2] at r4
    simpa [initState] using r4
  · exact runP_drain C N su co hC choices (initState items)
      (by simp [initState, hlen])

/-- Witness for C2: three items, concurrency two, an out-of-order settlement
oracle and one failing item. -/
theorem processInParallel_bounded_report :
    ((runP 2 3 (fun i => i ≠ 7) (fun _ => []) [1, 0, 0] (initState [5, 7, 9])).done).Perm
        [5, 7, 9] ∧
    (runP 2 3 (fun i => i ≠ 7) (fun _ => []) [1, 0, 0] (initState [5, 7, 9])).queue = [] ∧
    (runP 2 3 (fun i => i ≠ 7) (fun _ => []) ([1, 0, 0].take 2)
        (initState [5, 7, 9])).inFlight.length ≤ 2 :=
  ⟨(processInParallel_bounded [5, 7, 9] 2 3 (fun i => i ≠ 7) (fun _ => []) [1, 0, 0]
      (by decide) (by decide) (by decide)).2.1,
   (processInParallel_bounded [5, 7, 9] 2 3 (fun i => i ≠ 7) (fun _ => []) [1, 0, 0]
      (by decide) (by decide) (by decide)).2.2.1,
   ((processInParallel_bounded [5, 7, 9] 2 3 (fun i => i ≠ 7) (fun _ => []) [1, 0, 0]
      (by decide) (by decide) (by decide)).1 2).1⟩

/-! ### Order restoration lemmas -/

theorem sorted_key_eq (l₁ l₂ : List (ℕ × List Char)) (hp : l₁.Perm l₂)
    (h₁ : l₁.Pairwise (fun a b => a.1 < b.1))
    (h₂ : l₂.Pairwise (fun a b => a.1 < b.1)) : l₁ = l₂ := by
  haveI : IsAntisymm (ℕ × List Char) (fun a b => a.1 < b.1) :=
    ⟨fun a b h h' => absurd (h.trans h') (lt_irrefl _)⟩
  exact List.eq_of_perm_of_sorted hp h₁ h₂

theorem insertionSort_eq_of_perm (l m : List (ℕ × List Char)) (hperm : l.Perm m)
    (hm : m.Pairwise (fun a b => a.1 < b.1)) (hnodup : (m.map Prod.fst).Nodup) :
    List.insertionSort pageLe l = m := by
  apply sorted_key_eq
  · exact (List.perm_insertionSort pageLe l).trans hperm
  · have hsorted : List.Sorted pageLe (List.insertionSort pageLe l) :=
      List.sorted_insertionSort pageLe l
    have hnd : ((List.insertionSort pageLe l).map Prod.fst).Nodup :=
      (List.Perm.nodup_iff
        (List.Perm.map Prod.fst ((List.perm_insertionSort pageLe l).trans hperm))).mpr
        hnodup
    have hne : (List.insertionSort pageLe l).Pairwise (fun a b => a.1 ≠ b.1) :=
      List.pairwise_map.mp hnd
    exact (List.Pairwise.and hsorted hne).imp fun h => lt_of_le_of_ne h.1 h.2
  · exact hm

theorem canonical_pairwise (N : ℕ) (su : ℕ → Bool) (co : ℕ → List Char) :
    (((List.range N).filter (fun i => su i)).map (fun i => (i, co i))).Pairwise
      (fun a b => a.1 < b.1) := by
  rw [List.pairwise_map]
  exact ((List.pairwise_lt_range N).sublist (List.filter_sublist _))

theorem canonical_nodup (N : ℕ) (su : ℕ → Bool) (co : ℕ → List Char) :
    ((((List.range N).filter (fun i => su i)).map (fun i => (i, co i))).map
      Prod.fst).Nodup := by
  rw [List.map_map]
  have hcomp : (Prod.fst ∘ fun i : ℕ => (i, co i)) = fun i => i := rfl
  rw [hcomp, List.map_id']
  exact List.Nodup.filter _ (List.nodup_range N)

/-- C1: regardless of the settlement order of the per-page invocations, the
document assembled by `parsePdf` is the concatenation, in ascending
`pageIndex` order, of the contents of the successfully processed pages. -/
theorem parsePdf_order_restoration (N C : ℕ) (su : ℕ → Bool) (co : ℕ → List Char)
    (choices : List ℕ) (hC : 1 ≤ C) (hCN : C < N) (hlen : choices.length = N) :
    parsePdfContent N C su co choices =
      joinPages (((List.range N).filter (fun i => su i)).map co) := by
  obtain ⟨-, hcont, -, hperm⟩ := runP_inv C N su co choices
    (initState (List.range N)) (by simp [initState]) rfl rfl
  obtain ⟨d1, d2⟩ := runP_drain C N su co hC choices (initState (List.range N))
    (by simp [initState, hlen])
  have hdone : ((runP C N su co choices (initState (List.range N))).done).Perm
      (List.range N) := by
    rw [d1, d2] at hperm
    simpa [initState] using hperm
  have hcontperm : ((runP C N su co choices (initState (List.range N))).contents).Perm
      (((List.range N).filter (fun i => su i)).map (fun i => (i, co i))) := by
    rw [hcont]
    exact List.Perm.map _ (List.Perm.filter _ hdone)
  have hsort : List.insertionSort pageLe
      (runP C N su co choices (initState (List.range N))).contents =
      ((List.range N).filter (fun i => su i)).map (fun i => (i, co i)) :=
    insertionSort_eq_of_perm _ _ hcontperm (canonical_pairwise N su co)
      (canonical_nodup N su co)
  show joinPages ((List.insertionSort pageLe
      (runP C N su co choices (initState (List.range N))).contents).map Prod.snd) = _
  rw [hsort]
  congr 1
  rw [List.map_map]
  rfl

/-- Witness for C1: three pages at concurrency two settling out of order
assemble in ascending page order. -/
theorem parsePdf_order_restoration_report :
    parsePdfContent 3 2 (fun _ => true) (fun i => [Char.ofNat (97 + i)]) [1, 0, 0] =
      joinPages (((List.range 3).filter (fun _ => (true : Bool))).map
        (fun i => [Char.ofNat (97 + i)])) :=
  parsePdf_order_restoration 3 2 (fun _ => true) (fun i => [Char.ofNat (97 + i)])
    [1, 0, 0] (by decide) (by decide) (by decide)

/-! ### Progress trace lemmas -/

theorem chain_le_range_concat (S N : ℕ) (hSN : S ≤ N) :
    List.Chain' (fun a b : ℕ => a ≤ b) (List.range (S + 1) ++ [N]) := by
  rw [List.chain'_append]
  refine ⟨?_, List.chain'_singleton N, ?_⟩
  · exact (List.chain'_range_succ (fun a b => a ≤ b) S).mpr
      fun m _ => Nat.le_succ m
  · intro x hx y hy
    rw [List.range_succ, List.getLast?_concat, Option.mem_def,
      Option.some.injEq] at hx
    rw [List.head?_cons, Option.mem_def, Option.some.injEq] at hy
    omega

/-- C7: a completed `parsePdf` run reports `starting` with `current = 0`
first, then exactly one `running` event per successfully completed page whose
`current` is the number of pages completed so far (so the k-th completion
reports `current = k`), and finally `finished` with `current = total`; the
`current` values over the whole trace are monotonically non-decreasing. -/
theorem parsePdf_progress (N C : ℕ) (su : ℕ → Bool) (co : ℕ → List Char)
    (choices : List ℕ) (hC : 1 ≤ C) (hlen : choices.length = N) :
    parsePdfProgress N C su co choices =
      ⟨0, N, TaskStatus.starting⟩ ::
        ((List.range (((List.range N).filter (fun i => su i)).length)).map
          (fun k => ⟨k + 1, N, TaskStatus.running⟩)) ++
        [⟨N, N, TaskStatus.finished⟩] ∧
    List.Chain' (fun a b => a.current ≤ b.current)
      (parsePdfProgress N C su co choices) ∧
    (parsePdfProgress N C su co choices).head? =
      some ⟨0, N, TaskStatus.starting⟩ ∧
    (parsePdfProgress N C su co choices).getLast? =
      some ⟨N, N, TaskStatus.finished⟩ := by
  obtain ⟨-, hcont, hevents, hperm⟩ := runP_inv C N su co choices
    (initState (List.range N)) (by simp [initState]) rfl rfl
  obtain ⟨d1, d2⟩ := runP_drain C N su co hC choices (initState (List.range N))
    (by simp [initState, hlen])
  have hdone : ((runP C N su co choices (initState (List.range N))).done).Perm
      (List.range N) := by
    rw [d1, d2] at hperm
    simpa [initState] using hperm
  have hS : (runP C N su co choices (initState (List.range N))).contents.length =
      ((List.range N).filter (fun i => su i)).length := by
    rw [hcont, List.length_map]
    exact (List.Perm.filter _ hdone).length_eq
  have htrace : parsePdfProgress N C su co choices =
      ⟨0, N, TaskStatus.starting⟩ ::
        ((List.range (((List.range N).filter (fun i => su i)).length)).map
          (fun k => ⟨k + 1, N, TaskStatus.running⟩)) ++
        [⟨N, N, TaskStatus.finished⟩] := by
    unfold parsePdfProgress
    rw [hevents, hS]
  have hSN : ((List.range N).filter (fun i => su i)).length ≤ N := by
    have := List.length_filter_le (fun i => su i) (List.range N)
    simpa using this
  refine ⟨htrace, ?_, ?_, ?_⟩
  · rw [htrace]
    apply (List.chain'_map (fun e : ProgressInfo => e.current)).mp
    have hform : ((⟨0, N, TaskStatus.starting⟩ ::
        ((List.range (((List.range N).filter (fun i => su i)).length)).map
          (fun k => (⟨k + 1, N, TaskStatus.running⟩ : ProgressInfo))) ++
        [⟨N, N, TaskStatus.finished⟩] : List ProgressInfo)).map
          (fun e => e.current) =
        List.range (((List.range N).filter (fun i => su i)).length + 1) ++ [N] := by
      simp only [List.map_cons, List.map_append, List.map_map]
      rw [List.range_succ_eq_map]
      rfl
    rw [hform]
    exact chain_le_range_concat _ N hSN
  · rw [htrace]
    rfl
  · rw [htrace]
    rw [show (⟨0, N, TaskStatus.starting⟩ ::
        ((List.range (((List.range N).filter (fun i => su i)).length)).map
          (fun k => (⟨k + 1, N, TaskStatus.running⟩ : ProgressInfo))) ++
        [⟨N, N, TaskStatus.finished⟩] : List ProgressInfo) =
      (⟨0, N, TaskStatus.starting⟩ ::
        ((List.range (((List.range N).filter (fun i => su i)).length)).map
          (fun k => (⟨k + 1, N, TaskStatus.running⟩ : ProgressInfo)))) ++
        [⟨N, N, TaskStatus.finished⟩] from rfl]
    exact List.getLast?_concat _

/-- Witness for C7: three pages, one failing, out-of-order settlement — the
trace is canonical and ends with `finished` at `current = total`. -/
theorem parsePdf_progress_report :
    parsePdfProgress 3 2 (fun i => i ≠ 1) (fun _ => []) [1, 0, 0] =
      ⟨0, 3, TaskStatus.starting⟩ ::
        ((List.range (((List.range 3).filter
            (fun i => (decide (i ≠ 1) : Bool))).length)).map
          (fun k => ⟨k + 1, 3, TaskStatus.running⟩)) ++
        [⟨3, 3, TaskStatus.finished⟩] ∧
    (parsePdfProgress 3 2 (fun i => i ≠ 1) (fun _ => []) [1, 0, 0]).getLast? =
      some ⟨3, 3, TaskStatus.finished⟩ :=
  ⟨(parsePdf_progress 3 2 (fun i => i ≠ 1) (fun _ => []) [1, 0, 0]
      (by decide) (by decide)).1,
   (parsePdf_progress 3 2 (fun i => i ≠ 1) (fun _ => []) [1, 0, 0]
      (by decide) (by decide)).2.2.2⟩
